import Mathlib

/-!
# Verification of the `cvs_objects` object model

A shallow embedding of `src/modules/cvs_objects.py`: the content-addressed
object store of a minimal version-control system (blobs, trees, commits),
its SHA-1 hashing, its serialization contract, and the directory
materializer `Tree.initialize_from_directory`.

Conventions of the embedding:
* Python `bytes` become `Bytes := List Nat`, each entry a byte value.
* Python `str` becomes `PyStr := List Char`.
* `hashlib.sha1(...).digest()` is embedded as an executable implementation
  of real SHA-1 (`sha1`), returning the 20-byte digest as a `List Nat`.
* Python `dict` (insertion ordered, updates keep the original position of
  an existing key) becomes an association list with the `upsert` operation.
* `pickle.dumps` / `pickle.loads` are library calls whose exact byte layout
  is implementation defined; they are embedded as an injective,
  self-describing full-state encoding of the object (tag byte, then every
  field, children in insertion order) together with its decoder.
-/

/-- Byte strings: Python `bytes` values, one `Nat` per byte. -/
abbrev Bytes := List Nat

/-- Python `str` values. -/
abbrev PyStr := List Char

/-! ## SHA-1

An executable embedding of `hashlib.sha1(...).digest()`: standard SHA-1
(FIPS 180) over byte lists, all 32-bit arithmetic done in `Nat` with
explicit `% 4294967296`. -/

/-- The five 32-bit working/accumulator words of SHA-1. -/
abbrev Sha1State := Nat × Nat × Nat × Nat × Nat

/-- Rotate a 32-bit word left by `n` bits (for `x < 2^32`). -/
def rotl (n x : Nat) : Nat :=
  ((x <<< n) % 4294967296) ||| (x >>> (32 - n))

/-- Big-endian encoding of `n` into exactly `k` bytes. -/
def beBytes : Nat → Nat → Bytes
  | 0, _ => []
  | k + 1, n => beBytes k (n / 256) ++ [n % 256]

/-- Group a byte list into big-endian 32-bit words (4 bytes each). -/
def toWords : Bytes → List Nat
  | b0 :: b1 :: b2 :: b3 :: rest =>
      (b0 * 16777216 + b1 * 65536 + b2 * 256 + b3) :: toWords rest
  | _ => []

/-- Extend the 16 message-schedule words by `n` more words, each the
1-bit left rotation of the xor of the words 3, 8, 14 and 16 back. -/
def extendWords : Nat → List Nat → List Nat
  | 0, ws => ws
  | n + 1, ws =>
      let m := ws.length
      let nw := rotl 1 (ws.getD (m - 3) 0 ^^^ ws.getD (m - 8) 0 ^^^
                        ws.getD (m - 14) 0 ^^^ ws.getD (m - 16) 0)
      extendWords n (ws ++ [nw])

/-- One SHA-1 round: round index `i`, state `(a, b, c, d, e)`, schedule
word `w`. -/
def roundStep (i : Nat) (s : Sha1State) (w : Nat) : Sha1State :=
  let (a, b, c, d, e) := s
  let f :=
    if i < 20 then (b &&& c) ||| ((4294967295 - b) &&& d)
    else if i < 40 then b ^^^ c ^^^ d
    else if i < 60 then (b &&& c) ||| (b &&& d) ||| (c &&& d)
    else b ^^^ c ^^^ d
  let k :=
    if i < 20 then 1518500249
    else if i < 40 then 1859775393
    else if i < 60 then 2400959708
    else 3395469782
  let temp := (rotl 5 a + f + e + k + w) % 4294967296
  (temp, a, rotl 30 b, c, d)

/-- Run the 80 rounds of one chunk and add the result onto the
accumulator words (mod 2^32). -/
def processChunk (h : Sha1State) (chunk : Bytes) : Sha1State :=
  let ws := extendWords 64 (toWords chunk)
  let s := (ws.foldl (fun (p : Sha1State × Nat) w =>
    (roundStep p.2 p.1 w, p.2 + 1)) (h, 0)).1
  let (h0, h1, h2, h3, h4) := h
  let (a, b, c, d, e) := s
  ((h0 + a) % 4294967296, (h1 + b) % 4294967296, (h2 + c) % 4294967296,
   (h3 + d) % 4294967296, (h4 + e) % 4294967296)

/-- Consume the padded message 64 bytes at a time; `fuel` bounds the
number of iterations (any fuel at least the number of chunks works). -/
def processChunks : Nat → Sha1State → Bytes → Sha1State
  | 0, h, _ => h
  | n + 1, h, bytes =>
      if bytes = [] then h
      else processChunks n (processChunk h (bytes.take 64)) (bytes.drop 64)

/-- Serialize one 32-bit word to 4 big-endian bytes. -/
def wordBytes (w : Nat) : Bytes :=
  [w / 16777216 % 256, w / 65536 % 256, w / 256 % 256, w % 256]

/-- Extract the 20-byte digest from the final SHA-1 state. -/
def digestOf (s : Sha1State) : Bytes :=
  let (a, b, c, d, e) := s
  wordBytes a ++ wordBytes b ++ wordBytes c ++ wordBytes d ++ wordBytes e

/-- SHA-1 of a byte string: the embedding of
`hashlib.sha1(msg).digest()`.  Input entries are reduced mod 256 (Python
`bytes` entries are bytes by type). -/
def sha1 (msg : Bytes) : Bytes :=
  let l := msg.length
  let padded := msg.map (· % 256) ++ 128 ::
    (List.replicate ((119 - l % 64) % 64) 0 ++ beBytes 8 (8 * l))
  digestOf (processChunks padded.length
    (1732584193, 4023233417, 2562383102, 271733878, 3285377520) padded)

/-! ## Paths

`os.path`-level helpers used by `TreeObjectData.name` and
`Tree.initialize_from_directory`. -/

/-- The POSIX path separator. -/
def pathSep : Char := '/'

/-- Embedding of `os.path.join(a, b)` for POSIX paths: an absolute `b`
wins; otherwise `b` is appended, inserting one separator unless `a` is
empty or already ends with the separator. -/
def pathJoin (a b : PyStr) : PyStr :=
  if b.head? = some pathSep then b
  else if a = [] ∨ a.getLast? = some pathSep then a ++ b
  else a ++ pathSep :: b

/-- Embedding of `os.path.basename(p)`: the suffix of `p` after the last
separator (CPython returns `p[p.rfind(sep) + 1:]`). -/
def pyBasename (p : PyStr) : PyStr :=
  (p.reverse.takeWhile (fun c => ¬ c = pathSep)).reverse

/-! ## The object model

Everything below lives in the `Cvs` namespace (the module
`modules.cvs_objects`), so that `Cvs.Tree`, `Cvs.Blob`, `Cvs.Commit`
mirror the Python classes. -/

namespace Cvs

/-- The Python class object stored in `TreeObjectData.object_type`
(`Blob` or `Tree`). -/
inductive ObjectType where
  | blob : ObjectType
  | tree : ObjectType
deriving DecidableEq, Repr

/-- `TreeObjectData`: the frozen dataclass describing one tree entry
(`path`, `object_type`, `is_removed`); used as the key of a Tree's
`children` dict.  `eq=True, frozen=True` makes equality field-wise, which
is definitional for a Lean structure. -/
structure TreeObjectData where
  path : PyStr
  object_type : ObjectType
  is_removed : Bool
deriving DecidableEq, Repr

/-- The derived, presentation-only `name` property:
`os.path.basename(self.path)`. -/
def TreeObjectData.name (d : TreeObjectData) : PyStr :=
  pyBasename d.path

/-- `Blob`: a file container, `content` plus the `is_removed` tombstone
flag. -/
structure Blob where
  content : Bytes
  is_removed : Bool
deriving DecidableEq, Repr

/-- `Tree`: one directory level.  Python's insertion-ordered
`dict[TreeObjectData, bytes]` is embedded as an association list;
`is_removed` as in `Blob`. -/
structure Tree where
  children : List (TreeObjectData × Bytes)
  is_removed : Bool
deriving DecidableEq, Repr

/-- `Commit`: a reference to a top-level tree, a parent hash (`b''` for a
root commit) and a message. -/
structure Commit where
  tree : Tree
  parent_commit_hash : Bytes
  message : PyStr
deriving DecidableEq, Repr

/-- `Commit.__init__(tree, message)`: the parent hash starts out as
`b''`. -/
def Commit.init (tree : Tree) (message : PyStr) : Commit :=
  ⟨tree, [], message⟩

/-! ## Python dict semantics

CPython dicts preserve insertion order, and assigning to a key that is
already present updates its value in place, keeping its original
position.  `upsert` is exactly that assignment on the association
list. -/

/-- `d[k] = v` on an insertion-ordered dict: replace the value at the
first occurrence of `k`, or append `(k, v)` if `k` is absent. -/
def upsert : List (TreeObjectData × Bytes) → TreeObjectData → Bytes →
    List (TreeObjectData × Bytes)
  | [], d, h => [(d, h)]
  | (k, v) :: rest, d, h =>
      if k = d then (k, h) :: rest else (k, v) :: upsert rest d h

/-- `dict.__getitem__` / `in`-lookup: the value at the first occurrence
of the key. -/
def dictGet : List (TreeObjectData × Bytes) → TreeObjectData → Option Bytes
  | [], _ => none
  | (k, v) :: rest, d => if k = d then some v else dictGet rest d

/-- The keys of the dict, in order. -/
def keysOf (l : List (TreeObjectData × Bytes)) : List TreeObjectData :=
  l.map Prod.fst

/-- A real Python dict never holds a key twice; association lists with
duplicate keys are unreachable states of the embedding. -/
def nodupKeys (l : List (TreeObjectData × Bytes)) : Prop :=
  (keysOf l).Nodup

instance (l : List (TreeObjectData × Bytes)) : Decidable (nodupKeys l) := by
  unfold nodupKeys; infer_instance

/-- Python `dict.__eq__`: two dicts are equal when they contain the same
key/value pairs, regardless of insertion order. -/
def pyDictEq (a b : List (TreeObjectData × Bytes)) : Bool :=
  decide (a.length = b.length) &&
    a.all (fun kv => decide (dictGet b kv.1 = some kv.2))

/-- `Tree.add_object(data, object_hash)`: `self.children[data] =
object_hash`. -/
def Tree.add_object (t : Tree) (data : TreeObjectData)
    (object_hash : Bytes) : Tree :=
  { t with children := upsert t.children data object_hash }

/-- `Tree.__eq__`: children dicts compared as dicts, plus the
`is_removed` flag. -/
def treeEq (t1 t2 : Tree) : Bool :=
  pyDictEq t1.children t2.children &&
    decide (t1.is_removed = t2.is_removed)

/-- `Commit.__eq__`: structural comparison of tree (via `Tree.__eq__`),
message and parent hash; no hash of either commit is computed. -/
def commitEq (c1 c2 : Commit) : Bool :=
  treeEq c1.tree c2.tree && decide (c1.message = c2.message) &&
    decide (c1.parent_commit_hash = c2.parent_commit_hash)

/-! ## The pickle model

`serialize()` is `pickle.dumps(self)` in the source; `deserialize` is
`pickle.loads`.  The exact pickle byte layout is implementation defined
(an internal full-state encoding, per the spec), so it is embedded as an
injective, self-describing encoding: a class tag byte followed by every
field, with variable-length data length-prefixed, and the children dict
serialized in insertion order exactly as pickle serializes a dict.  The
decoders are prefix parsers returning the decoded value and the rest of
the input; `pickle.loads` of bytes that do not start with a valid
encoding fails, embedded as `none`. -/

/-- Self-delimiting encoding of a natural number (used for lengths,
character codes and byte values). -/
def encNat (n : Nat) : Bytes :=
  List.replicate n 1 ++ [0]

/-- Decode `encNat`. -/
def decNat : Bytes → Option (Nat × Bytes)
  | [] => none
  | b :: rest =>
      if b = 0 then some (0, rest)
      else (decNat rest).map (fun p => (p.1 + 1, p.2))

/-- Encoding of a `bool` field. -/
def encBool (b : Bool) : Bytes :=
  [if b then 1 else 0]

/-- Decode `encBool`. -/
def decBool : Bytes → Option (Bool × Bytes)
  | [] => none
  | b :: rest => some (decide (b = 1), rest)

/-- Encoding of a byte string: length, then each byte. -/
def encBytes (bs : Bytes) : Bytes :=
  encNat bs.length ++ encByteSeq bs
where
  /-- The bytes themselves, each self-delimited. -/
  encByteSeq : Bytes → Bytes
    | [] => []
    | b :: rest => encNat b ++ encByteSeq rest

/-- Decode a fixed count of encoded bytes. -/
def decByteSeq : Nat → Bytes → Option (Bytes × Bytes)
  | 0, r => some ([], r)
  | n + 1, r =>
      (decNat r).bind fun p =>
        (decByteSeq n p.2).map fun q => (p.1 :: q.1, q.2)

/-- Decode `encBytes`. -/
def decBytes (r : Bytes) : Option (Bytes × Bytes) :=
  (decNat r).bind fun p => decByteSeq p.1 p.2

/-- Encoding of a `str`: length, then each character's code point. -/
def encStr (s : PyStr) : Bytes :=
  encNat s.length ++ encCharSeq s
where
  /-- The characters themselves, each self-delimited. -/
  encCharSeq : PyStr → Bytes
    | [] => []
    | c :: rest => encNat c.toNat ++ encCharSeq rest

/-- Decode a fixed count of encoded characters. -/
def decCharSeq : Nat → Bytes → Option (PyStr × Bytes)
  | 0, r => some ([], r)
  | n + 1, r =>
      (decNat r).bind fun p =>
        (decCharSeq n p.2).map fun q => (Char.ofNat p.1 :: q.1, q.2)

/-- Decode `encStr`. -/
def decStr (r : Bytes) : Option (PyStr × Bytes) :=
  (decNat r).bind fun p => decCharSeq p.1 p.2

/-- Encoding of the class reference stored in `object_type`. -/
def encType : ObjectType → Bytes
  | .blob => [0]
  | .tree => [1]

/-- Decode `encType`. -/
def decType : Bytes → Option (ObjectType × Bytes)
  | 0 :: rest => some (.blob, rest)
  | 1 :: rest => some (.tree, rest)
  | _ => none

/-- Encoding of a `TreeObjectData` key: all three stored fields. -/
def encData (d : TreeObjectData) : Bytes :=
  encStr d.path ++ encType d.object_type ++ encBool d.is_removed

/-- Decode `encData`. -/
def decData (r : Bytes) : Option (TreeObjectData × Bytes) :=
  (decStr r).bind fun p =>
    (decType p.2).bind fun q =>
      (decBool q.2).map fun b => (⟨p.1, q.1, b.1⟩, b.2)

/-- Encoding of one `children` dict item: the key, then the stored child
hash. -/
def encEntry (kv : TreeObjectData × Bytes) : Bytes :=
  encData kv.1 ++ encBytes kv.2

/-- Decode `encEntry`. -/
def decEntry (r : Bytes) : Option ((TreeObjectData × Bytes) × Bytes) :=
  (decData r).bind fun p =>
    (decBytes p.2).map fun q => ((p.1, q.1), q.2)

/-- The dict items, in insertion order, each self-delimited. -/
def encEntrySeq : List (TreeObjectData × Bytes) → Bytes
  | [] => []
  | e :: rest => encEntry e ++ encEntrySeq rest

/-- Decode a fixed count of dict items. -/
def decEntrySeq : Nat → Bytes → Option (List (TreeObjectData × Bytes) × Bytes)
  | 0, r => some ([], r)
  | n + 1, r =>
      (decEntry r).bind fun p =>
        (decEntrySeq n p.2).map fun q => (p.1 :: q.1, q.2)

/-- `Blob.serialize(self)` = `pickle.dumps(self)`: class tag, `content`,
`is_removed`. -/
def Blob.serialize (b : Blob) : Bytes :=
  1 :: (encBytes b.content ++ encBool b.is_removed)

/-- `Blob.deserialize(content)` = `pickle.loads(content)`. -/
def Blob.deserialize (content : Bytes) : Option Blob :=
  match content with
  | 1 :: rest =>
      (decBytes rest).bind fun p =>
        (decBool p.2).map fun q => ⟨p.1, q.1⟩
  | _ => none

/-- `Tree.serialize(self)` = `pickle.dumps(self)`: class tag,
`is_removed`, then the `children` dict (length, then the items in
insertion order). -/
def Tree.serialize (t : Tree) : Bytes :=
  2 :: (encBool t.is_removed ++ encNat t.children.length ++
    encEntrySeq t.children)

/-- Prefix parser for a pickled `Tree` (also used inside `Commit`). -/
def decTree (r : Bytes) : Option (Tree × Bytes) :=
  match r with
  | 2 :: rest =>
      (decBool rest).bind fun p =>
        (decNat p.2).bind fun n =>
          (decEntrySeq n.1 n.2).map fun q => (⟨q.1, p.1⟩, q.2)
  | _ => none

/-- `Tree.deserialize(content)` = `pickle.loads(content)`. -/
def Tree.deserialize (content : Bytes) : Option Tree :=
  (decTree content).map Prod.fst

/-- `Commit.serialize(self)` = `pickle.dumps(self)`: class tag, then the
referenced tree in full, the parent hash and the message. -/
def Commit.serialize (c : Commit) : Bytes :=
  3 :: (Tree.serialize c.tree ++ encBytes c.parent_commit_hash ++
    encStr c.message)

/-- `Commit.deserialize(content)` = `pickle.loads(content)`. -/
def Commit.deserialize (content : Bytes) : Option Commit :=
  match content with
  | 3 :: rest =>
      (decTree rest).bind fun p =>
        (decBytes p.2).bind fun q =>
          (decStr q.2).map fun m => ⟨p.1, q.1, m.1⟩
  | _ => none

/-! ## Hashing -/

/-- The fixed `b'blob #\x00'` domain-separation header. -/
def blobHeader : Bytes :=
  [98, 108, 111, 98, 32, 35, 0]

/-- `Blob.get_hash(self)`: SHA-1 of the header concatenated with
`content`; `is_removed` is not hashed. -/
def Blob.get_hash (b : Blob) : Bytes :=
  sha1 (blobHeader ++ b.content)

/-- `Tree.get_hash(self)`: SHA-1 of `self.serialize()`. -/
def Tree.get_hash (t : Tree) : Bytes :=
  sha1 t.serialize

/-- The fixed `b'commit #\x00'` header. -/
def commitHeader : Bytes :=
  [99, 111, 109, 109, 105, 116, 32, 35, 0]

/-- `Commit.get_hash(self)`: SHA-1 of the header, the tree's hash and the
parent hash; the message is not part of the hashed input. -/
def Commit.get_hash (c : Commit) : Bytes :=
  sha1 (commitHeader ++ c.tree.get_hash ++ c.parent_commit_hash)

/-- `Commit.derive_commit(tree, message)`: a fresh commit on `tree` with
`message`, whose parent hash is this commit's hash; `self` is not
touched. -/
def Commit.derive_commit (c : Commit) (tree : Tree) (message : PyStr) :
    Commit :=
  ⟨tree, c.get_hash, message⟩

/-! ## Directory materialization

`Tree.initialize_from_directory(directory)` walks `os.listdir(directory)`.
The file system it consumes is embedded as an explicit listing value: a
sequence of entries, each a file with contents or a subdirectory with its
own listing, in the order `os.listdir` yields them. -/

/-- A directory listing: the file-system input of
`initialize_from_directory`, in `os.listdir` order. -/
inductive FSListing where
  | nil : FSListing
  | file (nm : PyStr) (contents : Bytes) (rest : FSListing) : FSListing
  | dir (nm : PyStr) (entries : FSListing) (rest : FSListing) : FSListing

/-- The loop of `initialize_from_directory`: for each entry build the
child object (a `Blob` from the file's bytes, or recursively a `Tree`),
and `add_object` its `TreeObjectData` and hash to the accumulated tree.
Subdirectory paths get a trailing separator via
`os.path.join(full_path, '')`. -/
def initDirLoop (directory : PyStr) (acc : Tree) : FSListing → Tree
  | .nil => acc
  | .file nm contents rest =>
      let full_path := pathJoin directory nm
      let data : TreeObjectData := ⟨full_path, .blob, false⟩
      let obj : Blob := ⟨contents, false⟩
      initDirLoop directory (acc.add_object data obj.get_hash) rest
  | .dir nm entries rest =>
      let full_path := pathJoin (pathJoin directory nm) []
      let data : TreeObjectData := ⟨full_path, .tree, false⟩
      let obj : Tree := initDirLoop full_path ⟨[], false⟩ entries
      initDirLoop directory (acc.add_object data obj.get_hash) rest

/-- `Tree.initialize_from_directory(directory)`: start from `Tree()` and
run the loop over the directory's listing. -/
def Tree.initialize_from_directory (directory : PyStr)
    (listing : FSListing) : Tree :=
  initDirLoop directory ⟨[], false⟩ listing

/-! ## Round-trip lemmas for the pickle model

Each decoder parses exactly what the matching encoder produced and
returns the rest of the input unchanged. -/

theorem decNat_encNat (n : Nat) (r : Bytes) :
    decNat (encNat n ++ r) = some (n, r) := by
  induction n with
  | zero => rfl
  | succ n ih =>
      simp only [encNat, List.replicate_succ, List.cons_append, decNat,
        List.append_assoc, List.nil_append] at ih ⊢
      simp [ih]

theorem decBool_encBool (b : Bool) (r : Bytes) :
    decBool (encBool b ++ r) = some (b, r) := by
  cases b <;> rfl

theorem decByteSeq_encByteSeq (bs : Bytes) (r : Bytes) :
    decByteSeq bs.length (encBytes.encByteSeq bs ++ r) = some (bs, r) := by
  induction bs with
  | nil => rfl
  | cons b rest ih =>
      simp [encBytes.encByteSeq, decByteSeq, decNat_encNat, ih]

theorem decBytes_encBytes (bs : Bytes) (r : Bytes) :
    decBytes (encBytes bs ++ r) = some (bs, r) := by
  simp [encBytes, decBytes, decNat_encNat, decByteSeq_encByteSeq]

theorem decCharSeq_encCharSeq (s : PyStr) (r : Bytes) :
    decCharSeq s.length (encStr.encCharSeq s ++ r) = some (s, r) := by
  induction s with
  | nil => rfl
  | cons c rest ih =>
      simp [encStr.encCharSeq, decCharSeq, decNat_encNat, ih,
        Char.ofNat_toNat]

theorem decStr_encStr (s : PyStr) (r : Bytes) :
    decStr (encStr s ++ r) = some (s, r) := by
  simp [encStr, decStr, decNat_encNat, decCharSeq_encCharSeq]

theorem decType_encType (ty : ObjectType) (r : Bytes) :
    decType (encType ty ++ r) = some (ty, r) := by
  cases ty <;> rfl

theorem decData_encData (d : TreeObjectData) (r : Bytes) :
    decData (encData d ++ r) = some (d, r) := by
  simp [encData, decData, decStr_encStr, decType_encType, decBool_encBool]

theorem decEntry_encEntry (kv : TreeObjectData × Bytes) (r : Bytes) :
    decEntry (encEntry kv ++ r) = some (kv, r) := by
  simp [encEntry, decEntry, decData_encData, decBytes_encBytes]

theorem decEntrySeq_encEntrySeq (l : List (TreeObjectData × Bytes))
    (r : Bytes) :
    decEntrySeq l.length (encEntrySeq l ++ r) = some (l, r) := by
  induction l with
  | nil => rfl
  | cons e rest ih =>
      simp [encEntrySeq, decEntrySeq, decEntry_encEntry, ih]

theorem decTree_serialize (t : Tree) (r : Bytes) :
    decTree (Tree.serialize t ++ r) = some (t, r) := by
  simp [Tree.serialize, decTree, decBool_encBool, decNat_encNat,
    decEntrySeq_encEntrySeq]

/-- `pickle.loads(pickle.dumps(b))` reconstructs the blob. -/
theorem blob_deserialize_serialize (b : Blob) :
    Blob.deserialize b.serialize = some b := by
  have h := decBytes_encBytes b.content (encBool b.is_removed)
  have h2 := decBool_encBool b.is_removed []
  simp only [List.append_nil] at h2
  simp [Blob.serialize, Blob.deserialize, h, h2]

/-- `pickle.loads(pickle.dumps(t))` reconstructs the tree. -/
theorem tree_deserialize_serialize (t : Tree) :
    Tree.deserialize t.serialize = some t := by
  have h := decTree_serialize t []
  simp only [List.append_nil] at h
  simp [Tree.deserialize, h]

/-- `pickle.loads(pickle.dumps(c))` reconstructs the commit. -/
theorem commit_deserialize_serialize (c : Commit) :
    Commit.deserialize c.serialize = some c := by
  have h := decStr_encStr c.message []
  simp only [List.append_nil] at h
  simp [Commit.serialize, Commit.deserialize, decTree_serialize,
    decBytes_encBytes, h]

/-- `Tree.serialize` is injective: distinct in-memory trees have distinct
pickled forms (hence distinct SHA-1 preimages in `Tree.get_hash`). -/
theorem Tree.serialize_injective : Function.Injective Tree.serialize := by
  intro t1 t2 h
  have h1 := tree_deserialize_serialize t1
  have h2 := tree_deserialize_serialize t2
  rw [h, h2] at h1
  exact (Option.some.inj h1).symm

/-! ## Dict-semantics lemmas -/

theorem dictGet_eq_none_iff (l : List (TreeObjectData × Bytes))
    (d : TreeObjectData) : dictGet l d = none ↔ d ∉ keysOf l := by
  induction l with
  | nil => simp [dictGet, keysOf]
  | cons kv rest ih =>
      obtain ⟨k, v⟩ := kv
      by_cases hk : k = d
      · subst hk
        simp [dictGet, keysOf]
      · simp [dictGet, hk, ih, keysOf, Ne.symm hk]

/-- Assigning an absent key appends it at the end. -/
theorem upsert_of_not_mem (l : List (TreeObjectData × Bytes))
    (d : TreeObjectData) (h : Bytes) (hd : d ∉ keysOf l) :
    upsert l d h = l ++ [(d, h)] := by
  induction l with
  | nil => rfl
  | cons kv rest ih =>
      obtain ⟨k, v⟩ := kv
      simp only [keysOf, List.map_cons, List.mem_cons] at hd
      push_neg at hd
      simp [upsert, Ne.symm hd.1, ih (by simpa [keysOf] using hd.2)]

/-- After an assignment, the assigned key maps to the assigned value. -/
theorem dictGet_upsert_self (l : List (TreeObjectData × Bytes))
    (d : TreeObjectData) (h : Bytes) :
    dictGet (upsert l d h) d = some h := by
  induction l with
  | nil => simp [upsert, dictGet]
  | cons kv rest ih =>
      obtain ⟨k, v⟩ := kv
      by_cases hk : k = d
      · simp [upsert, dictGet, hk]
      · simp [upsert, dictGet, hk, ih]

/-- An assignment only touches the assigned key. -/
theorem dictGet_upsert_other (l : List (TreeObjectData × Bytes))
    (d e : TreeObjectData) (h : Bytes) (hne : e ≠ d) :
    dictGet (upsert l d h) e = dictGet l e := by
  induction l with
  | nil => simp [upsert, dictGet, Ne.symm hne]
  | cons kv rest ih =>
      obtain ⟨k, v⟩ := kv
      by_cases hk : k = d
      · subst hk
        simp [upsert, dictGet, Ne.symm hne]
      · by_cases he : k = e <;> simp [upsert, dictGet, hk, he, hne, ih]

/-- Assignment keeps the key order, appending a genuinely new key at the
end. -/
theorem keysOf_upsert (l : List (TreeObjectData × Bytes))
    (d : TreeObjectData) (h : Bytes) :
    keysOf (upsert l d h) =
      if d ∈ keysOf l then keysOf l else keysOf l ++ [d] := by
  induction l with
  | nil => simp [upsert, keysOf]
  | cons kv rest ih =>
      obtain ⟨k, v⟩ := kv
      by_cases hk : k = d
      · subst hk
        simp [upsert, keysOf]
      · have hdk : ¬ d = k := fun hdk => hk hdk.symm
        simp only [upsert, if_neg hk, keysOf, List.map_cons] at ih ⊢
        rw [ih]
        by_cases hd : d ∈ List.map Prod.fst rest
        · simp [List.mem_cons, hd, hdk]
        · simp [List.mem_cons, hd, hdk]

/-- Assignment preserves the no-duplicate-keys invariant. -/
theorem nodupKeys_upsert (l : List (TreeObjectData × Bytes))
    (d : TreeObjectData) (h : Bytes) (hl : nodupKeys l) :
    nodupKeys (upsert l d h) := by
  unfold nodupKeys at hl ⊢
  rw [keysOf_upsert]
  by_cases hd : d ∈ keysOf l
  · simpa [hd] using hl
  · simp only [if_neg hd]
    simpa [List.nodup_append] using ⟨hl, hd⟩

/-- In a dict without duplicate keys, lookup finds any stored item. -/
theorem dictGet_of_mem_nodup (l : List (TreeObjectData × Bytes))
    (k : TreeObjectData) (v : Bytes) (hnd : nodupKeys l)
    (hm : (k, v) ∈ l) : dictGet l k = some v := by
  induction l with
  | nil => simp at hm
  | cons kv rest ih =>
      obtain ⟨k1, v1⟩ := kv
      simp only [List.mem_cons, Prod.mk.injEq] at hm
      unfold nodupKeys keysOf at hnd
      simp only [List.map_cons, List.nodup_cons] at hnd
      rcases hm with ⟨hk, hv⟩ | hm
      · subst hk hv
        simp [dictGet]
      · have hk1 : k1 ≠ k := by
          intro hk1
          subst hk1
          exact hnd.1 (List.mem_map_of_mem Prod.fst hm)
        simp [dictGet, hk1, ih hnd.2 hm]

/-- Two dicts holding the same items in any order compare equal under
Python `==`. -/
theorem pyDictEq_of_perm (a b : List (TreeObjectData × Bytes))
    (hp : a.Perm b) (hnd : nodupKeys a) : pyDictEq a b = true := by
  have hndb : nodupKeys b := by
    unfold nodupKeys keysOf at hnd ⊢
    exact (hp.map Prod.fst).nodup_iff.mp hnd
  unfold pyDictEq
  simp only [Bool.and_eq_true, decide_eq_true_eq, List.all_eq_true]
  refine ⟨hp.length_eq, fun kv hm => ?_⟩
  obtain ⟨k, v⟩ := kv
  exact dictGet_of_mem_nodup b k v hndb (hp.mem_iff.mp hm)

/-! ## Shape of a SHA-1 digest -/

theorem digestOf_length (s : Sha1State) : (digestOf s).length = 20 := by
  obtain ⟨a, b, c, d, e⟩ := s
  simp [digestOf, wordBytes]

theorem digestOf_entries_lt (s : Sha1State) : ∀ x ∈ digestOf s, x < 256 := by
  obtain ⟨a, b, c, d, e⟩ := s
  intro x hx
  simp [digestOf, wordBytes] at hx
  rcases hx with rfl | rfl | rfl | rfl | rfl | rfl | rfl | rfl | rfl | rfl |
    rfl | rfl | rfl | rfl | rfl | rfl | rfl | rfl | rfl | rfl <;>
    exact Nat.mod_lt _ (by norm_num)

/-- A SHA-1 digest always has exactly 20 bytes. -/
theorem sha1_length (msg : Bytes) : (sha1 msg).length = 20 := by
  unfold sha1
  exact digestOf_length _

/-- Every entry of a SHA-1 digest is a byte value. -/
theorem sha1_entries_lt (msg : Bytes) : ∀ x ∈ sha1 msg, x < 256 := by
  unfold sha1
  exact digestOf_entries_lt _

/-! ## The claims -/

/-- C1: for every byte sequence `c` and removal flags `r1`, `r2`,
`Blob(c, r1).get_hash()` equals `Blob(c, r2).get_hash()`, and both equal
the SHA-1 digest of the fixed `b'blob #\x00'` domain-separation header
concatenated with `c`; `is_removed` is never mixed into the hash, so
adding a tombstone `TreeObjectData` for the path to a Tree stores
exactly the content-only blob's hash for that entry and leaves it
unchanged. -/
theorem C1_blob_hash_content_only (c : Bytes) (r1 r2 : Bool) (t : Tree)
    (p : PyStr) :
    Blob.get_hash ⟨c, r1⟩ = Blob.get_hash ⟨c, r2⟩ ∧
    Blob.get_hash ⟨c, r1⟩ = sha1 (blobHeader ++ c) ∧
    dictGet (t.add_object ⟨p, .blob, true⟩
        (Blob.get_hash ⟨c, true⟩)).children ⟨p, .blob, true⟩ =
      some (Blob.get_hash ⟨c, false⟩) := by
  refine ⟨rfl, rfl, ?_⟩
  exact dictGet_upsert_self t.children ⟨p, .blob, true⟩ _

/-- C5: for every `Blob`, `Tree` and `Commit`,
`deserialize(serialize(x))` reconstructs the object exactly (every
observable field equal), and `get_hash()` of the reconstruction equals
`get_hash()` of the original. -/
theorem C5_serialize_roundtrip (b : Blob) (t : Tree) (c : Commit) :
    Blob.deserialize b.serialize = some b ∧
    Tree.deserialize t.serialize = some t ∧
    Commit.deserialize c.serialize = some c ∧
    (Blob.deserialize b.serialize).map Blob.get_hash = some b.get_hash ∧
    (Tree.deserialize t.serialize).map Tree.get_hash = some t.get_hash ∧
    (Commit.deserialize c.serialize).map Commit.get_hash =
      some c.get_hash := by
  refine ⟨blob_deserialize_serialize b, tree_deserialize_serialize t,
    commit_deserialize_serialize c, ?_, ?_, ?_⟩ <;>
    simp [blob_deserialize_serialize, tree_deserialize_serialize,
      commit_deserialize_serialize]

/-- C10: `get_hash()` is deterministic — two calls on the same unmutated
object give the same result — and the result is a 20-byte digest (20
entries, each a byte value), for all three object kinds. -/
theorem C10_get_hash_deterministic (b : Blob) (t : Tree) (c : Commit) :
    b.get_hash = b.get_hash ∧ t.get_hash = t.get_hash ∧
    c.get_hash = c.get_hash ∧
    b.get_hash.length = 20 ∧ t.get_hash.length = 20 ∧
    c.get_hash.length = 20 ∧
    (∀ x ∈ b.get_hash, x < 256) ∧ (∀ x ∈ t.get_hash, x < 256) ∧
    (∀ x ∈ c.get_hash, x < 256) :=
  ⟨rfl, rfl, rfl, sha1_length _, sha1_length _, sha1_length _,
   sha1_entries_lt _, sha1_entries_lt _, sha1_entries_lt _⟩

/-- The claim's reading of `TreeObjectData.name`: the final path
component, that is, everything after the last separator (stated from the
claim's words, to be compared with the source's `os.path.basename`
model). -/
def lastComponent : PyStr → PyStr
  | [] => []
  | c :: rest =>
      if pathSep ∈ rest then lastComponent rest
      else if c = pathSep then rest else c :: rest

/-- `os.path.basename` returns exactly the final path component. -/
theorem pyBasename_eq_lastComponent (p : PyStr) :
    pyBasename p = lastComponent p := by
  induction p with
  | nil => rfl
  | cons c rest ih =>
      unfold pyBasename at ih ⊢
      unfold lastComponent
      rw [List.reverse_cons, List.takeWhile_append]
      by_cases hs : pathSep ∈ rest
      · have hcond :
            ¬ (rest.reverse.takeWhile
              (fun c => ¬ c = pathSep)).length = rest.reverse.length := by
          intro hlen
          have heq := (List.takeWhile_prefix
            (l := rest.reverse) (fun c => ¬ c = pathSep)).eq_of_length hlen
          rw [List.takeWhile_eq_self_iff] at heq
          have := heq pathSep (List.mem_reverse.mpr hs)
          simp at this
        rw [if_neg hcond, if_pos hs]
        exact ih
      · have hall : rest.reverse.takeWhile (fun c => ¬ c = pathSep) =
            rest.reverse := by
          rw [List.takeWhile_eq_self_iff]
          intro x hx
          have : x ≠ pathSep := fun h => hs (h ▸ List.mem_reverse.mp hx)
          simp [this]
        rw [if_pos (by rw [hall]), if_neg hs]
        by_cases hc : c = pathSep
        · simp [hc, hall, List.takeWhile]
        · simp [hc, hall, List.takeWhile]

/-- C8: the derived `name` of a `TreeObjectData` is the final component
of its `path`; equality is exactly field-wise equality of `path`,
`object_type` and `is_removed`, and `name` plays no role in it (two
unequal instances can share a `name`). -/
theorem C8_name_final_component (p : PyStr) (ty : ObjectType) (r : Bool) :
    (TreeObjectData.mk p ty r).name = lastComponent p ∧
    (∀ d1 d2 : TreeObjectData,
      d1 = d2 ↔ d1.path = d2.path ∧ d1.object_type = d2.object_type ∧
        d1.is_removed = d2.is_removed) ∧
    (TreeObjectData.mk ['a', pathSep, 'x'] .blob false).name =
      (TreeObjectData.mk ['b', pathSep, 'x'] .blob false).name ∧
    TreeObjectData.mk ['a', pathSep, 'x'] .blob false ≠
      TreeObjectData.mk ['b', pathSep, 'x'] .blob false := by
  refine ⟨pyBasename_eq_lastComponent p, fun d1 d2 => ?_, by decide, by decide⟩
  obtain ⟨p1, ty1, r1⟩ := d1
  obtain ⟨p2, ty2, r2⟩ := d2
  simp [TreeObjectData.mk.injEq]

/-- C3: materializing a directory that holds exactly the file `a.txt`
with bytes `b'hello'` and an empty subdirectory `sub/` yields a Tree with
exactly two children: the `a.txt` entry (kind `Blob`) mapped to
`Blob(b'hello').get_hash()`, and the `sub/` entry (kind `Tree`, path with
a trailing separator) mapped to `Tree().get_hash()`, the hash of an empty
tree. -/
theorem C3_materialize_hello_sub (d : PyStr) :
    Tree.initialize_from_directory d
      (.file ['a', '.', 't', 'x', 't'] [104, 101, 108, 108, 111]
        (.dir ['s', 'u', 'b'] .nil .nil)) =
    ⟨[(⟨pathJoin d ['a', '.', 't', 'x', 't'], .blob, false⟩,
        Blob.get_hash ⟨[104, 101, 108, 108, 111], false⟩),
      (⟨pathJoin (pathJoin d ['s', 'u', 'b']) [], .tree, false⟩,
        Tree.get_hash ⟨[], false⟩)], false⟩ := by
  simp [Tree.initialize_from_directory, initDirLoop, Tree.add_object,
    upsert, TreeObjectData.mk.injEq]

set_option maxRecDepth 40000 in
/-- C9: `Commit.__eq__` is structural — it holds exactly when the trees
compare equal (under `Tree.__eq__`), the messages are equal and the
parent hashes are equal — and the commits' own hashes play no part: two
concrete commits that compare equal can have different `get_hash()`
results (their trees hold the same children in different insertion
order). -/
theorem C9_commit_eq_structural (c1 c2 : Commit) :
    (commitEq c1 c2 = true ↔
      treeEq c1.tree c2.tree = true ∧ c1.message = c2.message ∧
        c1.parent_commit_hash = c2.parent_commit_hash) ∧
    (commitEq
        ⟨⟨[(⟨[], .blob, false⟩, [0]), (⟨[], .tree, false⟩, [1])], false⟩,
          [], []⟩
        ⟨⟨[(⟨[], .tree, false⟩, [1]), (⟨[], .blob, false⟩, [0])], false⟩,
          [], []⟩ = true ∧
      Commit.get_hash
        ⟨⟨[(⟨[], .blob, false⟩, [0]), (⟨[], .tree, false⟩, [1])], false⟩,
          [], []⟩ ≠
      Commit.get_hash
        ⟨⟨[(⟨[], .tree, false⟩, [1]), (⟨[], .blob, false⟩, [0])], false⟩,
          [], []⟩) := by
  refine ⟨?_, by decide, by decide⟩
  simp [commitEq, Bool.and_eq_true, decide_eq_true_eq, and_assoc]

set_option maxRecDepth 40000 in
/-- C6: assigning the same `TreeObjectData` key twice leaves exactly one
entry for that key, mapped to the second hash (last insertion wins); the
order of the other keys — and the position of an already-present key —
is preserved exactly, other keys' values are untouched, and insertion
order among distinct keys affects `get_hash()` (shown on concrete
trees). -/
theorem C6_add_object_last_wins (t : Tree) (d : TreeObjectData)
    (h1 h2 : Bytes) (hnd : nodupKeys t.children) :
    dictGet ((t.add_object d h1).add_object d h2).children d = some h2 ∧
    (keysOf ((t.add_object d h1).add_object d h2).children).count d = 1 ∧
    keysOf ((t.add_object d h1).add_object d h2).children =
      (if d ∈ keysOf t.children then keysOf t.children
       else keysOf t.children ++ [d]) ∧
    (∀ e, e ≠ d →
      dictGet ((t.add_object d h1).add_object d h2).children e =
        dictGet t.children e) ∧
    Tree.get_hash
        (((⟨[], false⟩ : Tree).add_object ⟨[], .blob, false⟩
          [0]).add_object ⟨[], .tree, false⟩ [1]) ≠
      Tree.get_hash
        (((⟨[], false⟩ : Tree).add_object ⟨[], .tree, false⟩
          [1]).add_object ⟨[], .blob, false⟩ [0]) := by
  have hkeys : keysOf ((t.add_object d h1).add_object d h2).children =
      (if d ∈ keysOf t.children then keysOf t.children
       else keysOf t.children ++ [d]) := by
    simp only [Tree.add_object]
    rw [keysOf_upsert, keysOf_upsert]
    by_cases hd : d ∈ keysOf t.children
    · simp [hd]
    · simp [hd]
  refine ⟨dictGet_upsert_self _ d h2, ?_, hkeys, ?_, by decide⟩
  · rw [hkeys]
    by_cases hd : d ∈ keysOf t.children
    · rw [if_pos hd]
      exact List.count_eq_one_of_mem hnd hd
    · rw [if_neg hd]
      simp [List.count_append, List.count_eq_zero.mpr hd]
  · intro e he
    simp only [Tree.add_object]
    rw [dictGet_upsert_other _ _ _ _ he, dictGet_upsert_other _ _ _ _ he]

/-- Witness for C6 at a concrete input: the empty tree has no duplicate
keys, and after two assignments to the same key the stored value is the
second one. -/
theorem C6_add_object_last_wins_witness :
    nodupKeys (⟨[], false⟩ : Tree).children ∧
    dictGet (((⟨[], false⟩ : Tree).add_object ⟨[], .blob, false⟩
        [0]).add_object ⟨[], .blob, false⟩ [1]).children
      ⟨[], .blob, false⟩ = some [1] :=
  ⟨by decide, (C6_add_object_last_wins ⟨[], false⟩ ⟨[], .blob, false⟩
    [0] [1] (by decide)).1⟩

set_option maxRecDepth 40000 in
/-- C7: `Tree.__eq__` is insertion-order-insensitive (two trees holding
the same children, in any order, with equal flags compare equal), while
hashing is order-sensitive: distinct in-memory trees always have distinct
serialized forms, and two concrete trees holding the same two entries in
opposite orders compare equal under `==` yet have different `get_hash()`
results — so Tree equality does not imply hash equality. -/
theorem C7_tree_eq_order_insensitive_hash_sensitive :
    (∀ t1 t2 : Tree, t1.children.Perm t2.children →
      nodupKeys t1.children → t1.is_removed = t2.is_removed →
      treeEq t1 t2 = true) ∧
    (∀ t1 t2 : Tree, t1 ≠ t2 → Tree.serialize t1 ≠ Tree.serialize t2) ∧
    treeEq ⟨[(⟨[], .blob, false⟩, [0]), (⟨[], .tree, false⟩, [1])], false⟩
      ⟨[(⟨[], .tree, false⟩, [1]), (⟨[], .blob, false⟩, [0])], false⟩ =
      true ∧
    Tree.get_hash
        ⟨[(⟨[], .blob, false⟩, [0]), (⟨[], .tree, false⟩, [1])], false⟩ ≠
      Tree.get_hash
        ⟨[(⟨[], .tree, false⟩, [1]), (⟨[], .blob, false⟩, [0])], false⟩ := by
  refine ⟨?_, ?_, by decide, by decide⟩
  · intro t1 t2 hp hnd hir
    unfold treeEq
    simp [pyDictEq_of_perm _ _ hp hnd, hir]
  · intro t1 t2 hne heq
    exact hne (Tree.serialize_injective heq)

/-- Witness for C7 at a concrete input: two two-entry trees holding the
same children in opposite insertion orders compare equal under
`Tree.__eq__`. -/
theorem C7_tree_eq_order_insensitive_hash_sensitive_witness :
    treeEq ⟨[(⟨['a'], .blob, false⟩, [5]), (⟨['b'], .blob, false⟩, [6])],
        true⟩
      ⟨[(⟨['b'], .blob, false⟩, [6]), (⟨['a'], .blob, false⟩, [5])],
        true⟩ = true :=
  C7_tree_eq_order_insensitive_hash_sensitive.1
    ⟨[(⟨['a'], .blob, false⟩, [5]), (⟨['b'], .blob, false⟩, [6])], true⟩
    ⟨[(⟨['b'], .blob, false⟩, [6]), (⟨['a'], .blob, false⟩, [5])], true⟩
    (by decide) (by decide) rfl

set_option maxRecDepth 40000 in
set_option maxHeartbeats 1000000 in
/-- C4: `derive_commit(tree, message)` returns a fresh commit whose
`tree` is `tree`, whose `message` is `message` and whose
`parent_commit_hash` is exactly `self.get_hash()`; the parent is not
modified (in this embedding `derive_commit` is a pure function of the
parent — the source constructs a new `Commit` and never writes to
`self`).  For the hash-difference part: the derived commit's hash is the
SHA-1 of `commit` header ++ tree hash ++ parent hash; a different tree
gives a different SHA-1 preimage already at the `Tree.serialize` level,
and the derived commit's hash preimage differs from the parent's
whenever the tree hashes differ or the parent's own hash differs from
its stored parent hash, so the digests differ unless SHA-1 collides on
those preimages; on a concrete root commit, deriving with the same tree
and a different message indeed changes `get_hash()`. -/
theorem C4_derive_commit_links_parent (p : Commit) (t : Tree) (m : PyStr) :
    (p.derive_commit t m).tree = t ∧
    (p.derive_commit t m).message = m ∧
    (p.derive_commit t m).parent_commit_hash = p.get_hash ∧
    (p.derive_commit t m).get_hash =
      sha1 (commitHeader ++ t.get_hash ++ p.get_hash) ∧
    (t ≠ p.tree → Tree.serialize t ≠ Tree.serialize p.tree) ∧
    ((t.get_hash ≠ p.tree.get_hash ∨
        p.get_hash ≠ p.parent_commit_hash) →
      commitHeader ++ t.get_hash ++ p.get_hash ≠
        commitHeader ++ p.tree.get_hash ++ p.parent_commit_hash) ∧
    Commit.get_hash
        (Commit.derive_commit ⟨⟨[], false⟩, [], []⟩ ⟨[], false⟩ ['x']) ≠
      Commit.get_hash ⟨⟨[], false⟩, [], []⟩ := by
  refine ⟨rfl, rfl, rfl, rfl, ?_, ?_, by decide⟩
  · intro hne heq
    exact hne (Tree.serialize_injective heq)
  · intro hd heq
    rw [List.append_assoc, List.append_assoc] at heq
    have h2 := List.append_cancel_left heq
    have h3 := List.append_inj h2 (by
      show (Tree.get_hash t).length = (Tree.get_hash p.tree).length
      unfold Tree.get_hash
      rw [sha1_length, sha1_length])
    rcases hd with hd | hd
    · exact hd h3.1
    · exact hd h3.2

/-- Witness for C4 at a concrete input: a one-entry tree differs from
the empty tree, hence so do their pickled forms. -/
theorem C4_derive_commit_links_parent_witness :
    (⟨[(⟨[], .blob, false⟩, [0])], false⟩ : Tree) ≠ ⟨[], false⟩ ∧
    Tree.serialize ⟨[(⟨[], .blob, false⟩, [0])], false⟩ ≠
      Tree.serialize ⟨[], false⟩ :=
  ⟨by decide, (C4_derive_commit_links_parent ⟨⟨[], false⟩, [], []⟩
    ⟨[(⟨[], .blob, false⟩, [0])], false⟩ []).2.2.2.2.1 (by decide)⟩

set_option maxRecDepth 40000 in
/-- Counterexample to C2 as stated: two distinct `(TreeObjectData, hash)`
pairs inserted in reversed order into two identical Trees that
*already contain both entries*.  Assigning a present key keeps its
position and here also its value, so both insertion orders leave the
tree — and hence `get_hash()` — unchanged and equal. -/
theorem C2_insertion_order_counterexample :
    ((⟨⟨[], .blob, false⟩, [0]⟩ : TreeObjectData × Bytes) ≠
      ⟨⟨[], .tree, false⟩, [1]⟩) ∧
    Tree.get_hash
        (((⟨[(⟨[], .blob, false⟩, [0]), (⟨[], .tree, false⟩, [1])],
            false⟩ : Tree).add_object
          ⟨[], .blob, false⟩ [0]).add_object ⟨[], .tree, false⟩ [1]) =
      Tree.get_hash
        (((⟨[(⟨[], .blob, false⟩, [0]), (⟨[], .tree, false⟩, [1])],
            false⟩ : Tree).add_object
          ⟨[], .tree, false⟩ [1]).add_object ⟨[], .blob, false⟩ [0]) :=
  ⟨by decide, rfl⟩

set_option maxRecDepth 40000 in
set_option maxHeartbeats 1000000 in
/-- C2 (amended): for two distinct `(TreeObjectData, hash)` pairs whose
keys are not already present in the tree, inserting them in reversed
order into two otherwise-identical Trees yields trees whose serialized
forms — the SHA-1 preimages of `get_hash()` — differ, so the
`get_hash()` results differ unless SHA-1 collides on those preimages;
on concrete inputs the two digests are verified to differ. -/
theorem C2_amended_order_sensitivity (t : Tree) (d1 d2 : TreeObjectData)
    (h1 h2 : Bytes) (hd1 : d1 ∉ keysOf t.children)
    (hd2 : d2 ∉ keysOf t.children) (hne : (d1, h1) ≠ (d2, h2)) :
    Tree.serialize ((t.add_object d1 h1).add_object d2 h2) ≠
      Tree.serialize ((t.add_object d2 h2).add_object d1 h1) ∧
    Tree.get_hash
        (((⟨[], false⟩ : Tree).add_object ⟨[], .blob, false⟩
          [0]).add_object ⟨[], .tree, false⟩ [1]) ≠
      Tree.get_hash
        (((⟨[], false⟩ : Tree).add_object ⟨[], .tree, false⟩
          [1]).add_object ⟨[], .blob, false⟩ [0]) := by
  refine ⟨?_, by decide⟩
  intro heq
  have htree := Tree.serialize_injective heq
  by_cases hdd : d1 = d2
  · subst hdd
    have hh : ¬ h1 = h2 := by simpa using hne
    have hget := congrArg (fun tr => dictGet tr.children d1) htree
    simp only [Tree.add_object] at hget
    rw [dictGet_upsert_self, dictGet_upsert_self] at hget
    exact hh (Option.some.inj hget).symm
  · have hd21 : ¬ d2 = d1 := fun h => hdd h.symm
    have hkeys := congrArg (fun tr => keysOf tr.children) htree
    simp only [Tree.add_object] at hkeys
    simp [keysOf_upsert, hd1, hd2, hdd, hd21] at hkeys

/-- Witness for the amended C2 at a concrete input: inserting two fresh
distinct entries into the empty tree in the two possible orders yields
different pickled forms. -/
theorem C2_amended_order_sensitivity_witness :
    (⟨[], .blob, false⟩ : TreeObjectData) ∉
      keysOf (⟨[], false⟩ : Tree).children ∧
    (⟨[], .tree, false⟩ : TreeObjectData) ∉
      keysOf (⟨[], false⟩ : Tree).children ∧
    ((⟨[], .blob, false⟩ : TreeObjectData), ([0] : Bytes)) ≠
      (⟨[], .tree, false⟩, [1]) ∧
    Tree.serialize (((⟨[], false⟩ : Tree).add_object ⟨[], .blob, false⟩
        [0]).add_object ⟨[], .tree, false⟩ [1]) ≠
      Tree.serialize (((⟨[], false⟩ : Tree).add_object ⟨[], .tree, false⟩
        [1]).add_object ⟨[], .blob, false⟩ [0]) :=
  ⟨by decide, by decide, by decide,
   (C2_amended_order_sensitivity ⟨[], false⟩ ⟨[], .blob, false⟩
     ⟨[], .tree, false⟩ [0] [1] (by decide) (by decide) (by decide)).1⟩

end Cvs
